import Mathlib

/-!
Shallow embedding of `reval/relative_validation.py`.

The file models the label-matching routine `_kuhn_munkres_algorithm` and the
`RelativeValidation` protocol.  Label arrays become `List ℕ`, the cost matrix
becomes a function `ℕ → ℕ → ℚ` filled by the same upper-triangle loop as the
source, and fallible Python steps (`TypeError` from the isinstance gate,
`ValueError` from `list.index`) become `Option`/sum-type results.  The two
external capabilities that the repository declares out of scope — scipy's
`linear_sum_assignment` and sklearn's `zero_one_loss` — are modelled from
their contracts in the specification.
-/

namespace Reval

/-- Number of distinct labels in a labeling, mirroring `len(set(true_lab))`. -/
def nclass (t : List ℕ) : ℕ := t.dedup.length

/-- Size of the intersection of the index set where the first labeling equals
`i` with the index set where the second labeling equals `j`, mirroring the
`n_intersec` computation done with `np.argwhere` and set intersection; an
index lies in the intersection exactly when it is in range for both arrays,
which is what zipping the two lists expresses. -/
def nIntersec (t p : List ℕ) (i j : ℕ) : ℕ :=
  (t.zip p).countP (fun q => decide (q.1 = i) && decide (q.2 = j))

/-- Cost value `w = (nobs - n_intersec) / nobs` with `nobs = len(true_lab)`. -/
def wTerm (t p : List ℕ) (i j : ℕ) : ℚ :=
  ((t.length : ℚ) - (nIntersec t p i j : ℚ)) / (t.length : ℚ)

/-- Write value `v` at cell `(a, b)` of a matrix represented as a function. -/
def updCell (f : ℕ → ℕ → ℚ) (a b : ℕ) (v : ℚ) : ℕ → ℕ → ℚ :=
  fun i j => if i = a ∧ j = b then v else f i j

/-- One iteration of the cost-matrix loop body: on the diagonal it writes a
single cell, off the diagonal it writes the cell together with its mirror
cell, the latter holding the symmetric cross term. -/
def wmatStep (t p : List ℕ) (f : ℕ → ℕ → ℚ) (q : ℕ × ℕ) : ℕ → ℕ → ℚ :=
  if q.1 = q.2 then updCell f q.1 q.2 (wTerm t p q.1 q.2)
  else updCell (updCell f q.1 q.2 (wTerm t p q.1 q.2)) q.2 q.1 (wTerm t p q.2 q.1)

/-- Iteration order of the nested loops
`for lab in range(nclass): for plab in range(lab, nclass)`. -/
def trianglePairs (K : ℕ) : List (ℕ × ℕ) :=
  (List.range K).flatMap (fun lab => (List.range' lab (K - lab)).map (fun plab => (lab, plab)))

/-- Cost matrix `wmat`, starting from `np.zeros((nclass, nclass))` and filled
by the upper-triangle loop of the source. -/
def wmat (t p : List ℕ) : ℕ → ℕ → ℚ :=
  (trianglePairs (nclass t)).foldl (wmatStep t p) (fun _ _ => 0)

/-- Total cost of assigning row `i` to column `ρ i` for `i < K`. -/
def totalCost (K : ℕ) (cost : ℕ → ℕ → ℚ) (ρ : List ℕ) : ℚ :=
  ∑ i ∈ Finset.range K, cost i (ρ.getD i 0)

/-- Choice between the current best assignment and a candidate. -/
def betterOf (K : ℕ) (cost : ℕ → ℕ → ℚ) (best cand : List ℕ) : List ℕ :=
  if totalCost K cost cand < totalCost K cost best then cand else best

/-- Modelled from the spec: the assignment solver
`scipy.optimize.linear_sum_assignment` is declared out of scope and specified
as a primitive that, given a square cost matrix, returns a bijection over
`{0..K-1}` minimizing the total assigned cost; it is modelled as a
deterministic brute-force minimum over all permutations of `range K`. -/
def linear_sum_assignment (K : ℕ) (cost : ℕ → ℕ → ℚ) : List ℕ :=
  ((List.range K).permutations).foldl (betterOf K cost) (List.range K)

/-- Relabeling step `[new_pred_lab.index(i) for i in pred_lab]`; the `none`
result models the `ValueError` raised by `list.index` on an absent value. -/
def relabel (asgn : List ℕ) : List ℕ → Option (List ℕ)
  | [] => some []
  | v :: rest =>
    if v ∈ asgn then
      match relabel asgn rest with
      | some out => some (List.indexOf v asgn :: out)
      | none => none
    else none

/-- Core of `_kuhn_munkres_algorithm` on the two label arrays: build the cost
matrix, solve the assignment problem, and rewrite the predicted labels through
the position of each value in the assignment list. -/
def kuhnMunkres (t p : List ℕ) : Option (List ℕ) :=
  relabel (linear_sum_assignment (nclass t) (wmat t p)) p

/-- Python value passed to the matcher: either a numpy array of labels, or a
value of any other type identified by its type name. -/
inductive PyVal where
  | ndarray (data : List ℕ)
  | pyOther (tyName : String)
deriving DecidableEq

/-- Type name used by the `TypeError` message. -/
def pyTypeName : PyVal → String
  | .ndarray _ => "numpy.ndarray"
  | .pyOther s => s

/-- Predicate of the `isinstance(x, np.ndarray)` check. -/
def isNdarray : PyVal → Bool
  | .ndarray _ => true
  | .pyOther _ => false

/-- Message of the `TypeError` raised by the isinstance gate; it names the
types of both offending arguments. -/
def typeErrorMsg (t p : PyVal) : String :=
  "input variables should be (np.ndarray, np.ndarray) not (" ++
    pyTypeName t ++ ", " ++ pyTypeName p ++ ")"

/-- Outcome of a call to `_kuhn_munkres_algorithm`: a returned array, an
untyped `ValueError` escaping from `list.index`, or the `TypeError` raised by
the isinstance gate. -/
inductive KMOutcome where
  | ok (res : List ℕ)
  | valueError
  | typeError (msg : String)
deriving DecidableEq

/-- Embedding of `_kuhn_munkres_algorithm`, including the dynamic
`isinstance` gate of the source. -/
def _kuhn_munkres_algorithm : PyVal → PyVal → KMOutcome
  | .ndarray tl, .ndarray pl =>
    match kuhnMunkres tl pl with
    | some out => .ok out
    | none => .valueError
  | t, p => .typeError (typeErrorMsg t p)

/-- Modelled from the spec: the external 0/1 loss `sklearn.metrics.zero_one_loss`
is out of scope and specified as the fraction of positions at which two
equal-length labelings disagree. -/
def zero_one_loss (a b : List ℕ) : ℚ :=
  (((a.zip b).countP (fun q => decide (q.1 ≠ q.2)) : ℕ) : ℚ) / (a.length : ℚ)

/-- Modelled from the spec: a fitted classification model, an opaque handle
supporting prediction on new data. -/
structure Model (D : Type) where
  predict : D → List ℕ

/-- Modelled from the spec: the classification capability, fitting a model on
data and labels. -/
structure ClassMethod (D : Type) where
  fit : D → List ℕ → Model D

/-- Modelled from the spec: the clustering capability, fitting and predicting
labels in one step. -/
structure ClustMethod (D : Type) where
  fit_predict : D → List ℕ

/-- The validator object holding the two capabilities and the number of
random-labeling rounds. -/
structure RelativeValidation (D : Type) where
  class_method : ClassMethod D
  clust_method : ClustMethod D
  nrand : ℕ

/-- Embedding of `RelativeValidation.train`. -/
def RelativeValidation.train {D : Type} (rv : RelativeValidation D) (train_data : D) :
    ℚ × Model D × List ℕ :=
  let clustlab_tr := rv.clust_method.fit_predict train_data
  let fitclass_tr := rv.class_method.fit train_data clustlab_tr
  let classlab_tr := fitclass_tr.predict train_data
  (zero_one_loss clustlab_tr classlab_tr, fitclass_tr, clustlab_tr)

/-- Embedding of `RelativeValidation.test`; the `Option` propagates the
possible `ValueError` of the matcher. -/
def RelativeValidation.test {D : Type} (rv : RelativeValidation D) (test_data : D)
    (fit_model : Model D) : Option (ℚ × List ℕ) :=
  let clustlab_ts := rv.clust_method.fit_predict test_data
  let classlab_ts := fit_model.predict test_data
  (kuhnMunkres clustlab_ts classlab_ts).map
    (fun bestperm => (zero_one_loss clustlab_ts bestperm, clustlab_ts))

/-- Modelled from the spec: the numpy global pseudo-random generator.  A
permutation draw is a pure function of the current seed, of how many draws
happened since seeding, and of the permuted input. -/
structure NumpyRandom where
  permutation : ℕ → ℕ → List ℕ → List ℕ

/-- Modelled from the spec: `np.mean` of a list of values. -/
def npMean (l : List ℚ) : ℚ := l.sum / (l.length : ℚ)

/-- One round of the random-label loop: permute the training labels, fit the
classifier on them, and score both the training side and the aligned test
side. -/
def rndRound {D : Type} (rv : RelativeValidation D) (npr : NumpyRandom)
    (train_data test_data : D) (train_labels test_labels : List ℕ) (k : ℕ) :
    Option (ℚ × ℚ) :=
  let lab := npr.permutation 0 k train_labels
  let m := rv.class_method.fit train_data lab
  let tr := zero_one_loss lab (m.predict train_data)
  (kuhnMunkres test_labels (m.predict test_data)).map
    (fun best => (tr, zero_one_loss test_labels best))

/-- Embedding of `rndlabels_traineval`; the ambient numpy RNG state `rng` is
overwritten by `np.random.seed(0)` before any draw happens, and the post-call
RNG state is returned alongside the two means. -/
def rndlabels_traineval {D : Type} (rv : RelativeValidation D) (npr : NumpyRandom)
    (rng : ℕ × ℕ) (train_data test_data : D) (train_labels test_labels : List ℕ) :
    Option ((ℚ × ℚ) × (ℕ × ℕ)) :=
  ((List.range rv.nrand).mapM
      (rndRound rv npr train_data test_data train_labels test_labels)).map
    (fun rounds =>
      ((npMean (rounds.map Prod.fst), npMean (rounds.map Prod.snd)), (0, rv.nrand)))

/-- Classifier capability for concrete checks: memorizes the training labels
and predicts them for any input. -/
def memorizingClassifier : ClassMethod Unit :=
  ⟨fun _ lab => ⟨fun _ => lab⟩⟩

/-- Clustering capability for concrete checks: always returns `[0, 1]`. -/
def pairClusterer : ClustMethod Unit := ⟨fun _ => [0, 1]⟩

/-- Clustering capability for concrete checks: always returns `[0]`. -/
def singletonClusterer : ClustMethod Unit := ⟨fun _ => [0]⟩

/-- Validator instance for concrete checks, clustering into two labels. -/
def rvPair : RelativeValidation Unit := ⟨memorizingClassifier, pairClusterer, 1⟩

/-- Validator instance for concrete checks, clustering into one label. -/
def rvSingle : RelativeValidation Unit := ⟨memorizingClassifier, singletonClusterer, 1⟩

/-- Model for concrete checks: always predicts `[0, 1]`. -/
def idPairModel : Model Unit := ⟨fun _ => [0, 1]⟩

/-- Identity numpy RNG model for concrete checks. -/
def idNumpyRandom : NumpyRandom := ⟨fun _ _ l => l⟩

/-! ### Lemmas about the cost-matrix construction -/

theorem updCell_same (f : ℕ → ℕ → ℚ) (a b : ℕ) (v : ℚ) : updCell f a b v a b = v := by
  simp [updCell]

theorem updCell_other (f : ℕ → ℕ → ℚ) (a b : ℕ) (v : ℚ) (i j : ℕ)
    (h : ¬(i = a ∧ j = b)) : updCell f a b v i j = f i j := by
  simp only [updCell, if_neg h]

theorem wmatStep_untouched (t p : List ℕ) (f : ℕ → ℕ → ℚ) (q : ℕ × ℕ) (i j : ℕ)
    (h1 : ¬(i = q.1 ∧ j = q.2)) (h2 : ¬(i = q.2 ∧ j = q.1)) :
    wmatStep t p f q i j = f i j := by
  unfold wmatStep
  split_ifs with hq
  · exact updCell_other _ _ _ _ _ _ h1
  · rw [updCell_other _ _ _ _ _ _ h2, updCell_other _ _ _ _ _ _ h1]

theorem wmatStep_fst (t p : List ℕ) (f : ℕ → ℕ → ℚ) (q : ℕ × ℕ) :
    wmatStep t p f q q.1 q.2 = wTerm t p q.1 q.2 := by
  unfold wmatStep
  split_ifs with hq
  · exact updCell_same _ _ _ _
  · rw [updCell_other _ _ _ _ _ _ (fun h => hq h.1), updCell_same]

theorem wmatStep_snd (t p : List ℕ) (f : ℕ → ℕ → ℚ) (q : ℕ × ℕ) :
    wmatStep t p f q q.2 q.1 = wTerm t p q.2 q.1 := by
  unfold wmatStep
  split_ifs with hq
  · rw [← hq]
    exact updCell_same _ _ _ _
  · exact updCell_same _ _ _ _

theorem foldl_wmatStep_untouched (t p : List ℕ) :
    ∀ (L : List (ℕ × ℕ)) (f : ℕ → ℕ → ℚ) (i j : ℕ),
      (∀ q ∈ L, q.1 ≤ q.2) → (min i j, max i j) ∉ L →
      L.foldl (wmatStep t p) f i j = f i j := by
  intro L
  induction L with
  | nil => intro f i j _ _; rfl
  | cons q L ih =>
    intro f i j hord hmem
    rw [List.foldl_cons]
    have hq : q.1 ≤ q.2 := hord q (List.mem_cons_self _ _)
    have hmem' : (min i j, max i j) ∉ L := fun h => hmem (List.mem_cons_of_mem _ h)
    rw [ih _ i j (fun r hr => hord r (List.mem_cons_of_mem _ hr)) hmem']
    apply wmatStep_untouched
    · rintro ⟨rfl, rfl⟩
      apply hmem
      have hpair : (min q.1 q.2, max q.1 q.2) = q := by
        rw [Nat.min_eq_left hq, Nat.max_eq_right hq]
      rw [hpair]
      exact List.mem_cons_self _ _
    · rintro ⟨rfl, rfl⟩
      apply hmem
      have hpair : (min q.2 q.1, max q.2 q.1) = q := by
        rw [Nat.min_eq_right hq, Nat.max_eq_left hq]
      rw [hpair]
      exact List.mem_cons_self _ _

theorem foldl_wmatStep_eval (t p : List ℕ) :
    ∀ (L : List (ℕ × ℕ)) (f : ℕ → ℕ → ℚ) (i j : ℕ),
      (∀ q ∈ L, q.1 ≤ q.2) → (min i j, max i j) ∈ L →
      L.foldl (wmatStep t p) f i j = wTerm t p i j := by
  intro L
  induction L with
  | nil => intro f i j _ h; cases h
  | cons q L ih =>
    intro f i j hord hmem
    rw [List.foldl_cons]
    by_cases hL : (min i j, max i j) ∈ L
    · exact ih _ i j (fun r hr => hord r (List.mem_cons_of_mem _ hr)) hL
    · have hqe : (min i j, max i j) = q := by
        rcases List.mem_cons.mp hmem with h | h
        · exact h
        · exact absurd h hL
      rw [foldl_wmatStep_untouched t p L _ i j
        (fun r hr => hord r (List.mem_cons_of_mem _ hr)) hL]
      rcases Nat.le_total i j with hij | hij
      · have h1 : q.1 = i := by rw [← hqe]; exact Nat.min_eq_left hij
        have h2 : q.2 = j := by rw [← hqe]; exact Nat.max_eq_right hij
        have := wmatStep_fst t p f q
        rw [h1, h2] at this
        exact this
      · have h1 : q.1 = j := by rw [← hqe]; exact Nat.min_eq_right hij
        have h2 : q.2 = i := by rw [← hqe]; exact Nat.max_eq_left hij
        have := wmatStep_snd t p f q
        rw [h1, h2] at this
        exact this

theorem mem_trianglePairs {K a b : ℕ} :
    (a, b) ∈ trianglePairs K ↔ a ≤ b ∧ b < K := by
  unfold trianglePairs
  simp only [List.mem_flatMap, List.mem_map, List.mem_range, List.mem_range',
    Prod.mk.injEq]
  constructor
  · rintro ⟨lab, hlab, plab, ⟨i, hi, hplab⟩, rfl, rfl⟩
    omega
  · rintro ⟨hab, hb⟩
    exact ⟨a, by omega, b, ⟨b - a, by omega, by omega⟩, rfl, rfl⟩

theorem trianglePairs_ordered {K : ℕ} : ∀ q ∈ trianglePairs K, q.1 ≤ q.2 := by
  rintro ⟨a, b⟩ hq
  exact (mem_trianglePairs.mp hq).1

/-- Every in-range cell of the cost matrix holds the direct formula, even
though the loop fills only the upper triangle plus diagonal. -/
theorem wmat_entry (t p : List ℕ) {i j : ℕ} (hi : i < nclass t) (hj : j < nclass t) :
    wmat t p i j = wTerm t p i j := by
  apply foldl_wmatStep_eval t p _ _ i j trianglePairs_ordered
  exact mem_trianglePairs.mpr (by omega)

/-! ### Lemmas about the assignment solver model -/

theorem foldl_betterOf_cases (K : ℕ) (cost : ℕ → ℕ → ℚ) :
    ∀ (l : List (List ℕ)) (a : List ℕ),
      l.foldl (betterOf K cost) a = a ∨ l.foldl (betterOf K cost) a ∈ l := by
  intro l
  induction l with
  | nil => intro a; exact Or.inl rfl
  | cons x l ih =>
    intro a
    rw [List.foldl_cons]
    rcases ih (betterOf K cost a x) with h | h
    · rw [h]
      unfold betterOf
      split_ifs
      · exact Or.inr (List.mem_cons_self _ _)
      · exact Or.inl rfl
    · exact Or.inr (List.mem_cons_of_mem _ h)

theorem betterOf_le_left (K : ℕ) (cost : ℕ → ℕ → ℚ) (a x : List ℕ) :
    totalCost K cost (betterOf K cost a x) ≤ totalCost K cost a := by
  unfold betterOf
  split_ifs with h
  · exact le_of_lt h
  · exact le_refl _

theorem betterOf_le_right (K : ℕ) (cost : ℕ → ℕ → ℚ) (a x : List ℕ) :
    totalCost K cost (betterOf K cost a x) ≤ totalCost K cost x := by
  unfold betterOf
  split_ifs with h
  · exact le_refl _
  · exact le_of_not_lt h

theorem foldl_betterOf_le_init (K : ℕ) (cost : ℕ → ℕ → ℚ) :
    ∀ (l : List (List ℕ)) (a : List ℕ),
      totalCost K cost (l.foldl (betterOf K cost) a) ≤ totalCost K cost a := by
  intro l
  induction l with
  | nil => intro a; exact le_refl _
  | cons x l ih =>
    intro a
    rw [List.foldl_cons]
    exact le_trans (ih (betterOf K cost a x)) (betterOf_le_left K cost a x)

theorem foldl_betterOf_le_mem (K : ℕ) (cost : ℕ → ℕ → ℚ) :
    ∀ (l : List (List ℕ)) (a x : List ℕ), x ∈ l →
      totalCost K cost (l.foldl (betterOf K cost) a) ≤ totalCost K cost x := by
  intro l
  induction l with
  | nil => intro a x hx; cases hx
  | cons y l ih =>
    intro a x hx
    rw [List.foldl_cons]
    rcases List.mem_cons.mp hx with rfl | hx'
    · exact le_trans (foldl_betterOf_le_init K cost l _) (betterOf_le_right K cost a x)
    · exact ih _ x hx'

theorem foldl_betterOf_keep (K : ℕ) (cost : ℕ → ℕ → ℚ) :
    ∀ (l : List (List ℕ)) (a : List ℕ),
      (∀ x ∈ l, totalCost K cost a ≤ totalCost K cost x) →
      l.foldl (betterOf K cost) a = a := by
  intro l
  induction l with
  | nil => intro a _; rfl
  | cons x l ih =>
    intro a h
    rw [List.foldl_cons]
    have hx : betterOf K cost a x = a := by
      unfold betterOf
      rw [if_neg (not_lt.mpr (h x (List.mem_cons_self _ _)))]
    rw [hx]
    exact ih a (fun y hy => h y (List.mem_cons_of_mem _ hy))

/-- The assignment returned by the solver model is a permutation of
`{0..K-1}`. -/
theorem lsa_perm (K : ℕ) (cost : ℕ → ℕ → ℚ) :
    (linear_sum_assignment K cost).Perm (List.range K) := by
  unfold linear_sum_assignment
  rcases foldl_betterOf_cases K cost (List.range K).permutations (List.range K) with h | h
  · rw [h]
  · exact List.mem_permutations.mp h

/-- The assignment returned by the solver model minimizes the total cost over
all permutations of `{0..K-1}`. -/
theorem lsa_min (K : ℕ) (cost : ℕ → ℕ → ℚ) {ρ : List ℕ} (hρ : ρ.Perm (List.range K)) :
    totalCost K cost (linear_sum_assignment K cost) ≤ totalCost K cost ρ :=
  foldl_betterOf_le_mem K cost _ _ ρ (List.mem_permutations.mpr hρ)

/-- When the identity assignment is already optimal, the solver model keeps
it. -/
theorem lsa_eq_range (K : ℕ) (cost : ℕ → ℕ → ℚ)
    (h : ∀ ρ, ρ.Perm (List.range K) → totalCost K cost (List.range K) ≤ totalCost K cost ρ) :
    linear_sum_assignment K cost = List.range K :=
  foldl_betterOf_keep K cost _ _ (fun x hx => h x (List.mem_permutations.mp hx))

/-! ### Permutation and index lookup utilities -/

theorem perm_range_length {K : ℕ} {π : List ℕ} (h : π.Perm (List.range K)) : π.length = K := by
  rw [h.length_eq, List.length_range]

theorem perm_range_mem {K : ℕ} {π : List ℕ} (h : π.Perm (List.range K)) {v : ℕ} :
    v ∈ π ↔ v < K := by
  rw [h.mem_iff, List.mem_range]

theorem perm_range_nodup {K : ℕ} {π : List ℕ} (h : π.Perm (List.range K)) : π.Nodup :=
  h.nodup_iff.mpr (List.nodup_range K)

theorem perm_indexOf_lt {K : ℕ} {π : List ℕ} (hπ : π.Perm (List.range K)) {v : ℕ}
    (hv : v < K) : List.indexOf v π < K := by
  have h := List.indexOf_lt_length.mpr ((perm_range_mem hπ).mpr hv)
  rw [perm_range_length hπ] at h
  exact h

/-- For a permutation `π` of `{0..K-1}`, position lookup is inverse to
element lookup. -/
theorem perm_indexOf_iff {K : ℕ} {π : List ℕ} (hπ : π.Perm (List.range K)) {a b : ℕ}
    (ha : a < K) (hb : b < K) :
    a = List.indexOf b π ↔ π.getD a 0 = b := by
  have hlen : π.length = K := perm_range_length hπ
  have hbmem : b ∈ π := (perm_range_mem hπ).mpr hb
  have hidx : List.indexOf b π < π.length := List.indexOf_lt_length.mpr hbmem
  constructor
  · rintro rfl
    rw [List.getD_eq_getElem π 0 hidx]
    exact List.getElem_indexOf hidx
  · intro hget
    have ha' : a < π.length := by omega
    rw [List.getD_eq_getElem π 0 ha'] at hget
    have hh := List.indexOf_getElem (perm_range_nodup hπ) a ha'
    rw [hget] at hh
    exact hh.symm

theorem getD_map_range {K i : ℕ} (f : ℕ → ℕ) (hi : i < K) :
    ((List.range K).map f).getD i 0 = f i := by
  have hlen : i < ((List.range K).map f).length := by
    rw [List.length_map, List.length_range]; exact hi
  rw [List.getD_eq_getElem _ 0 hlen, List.getElem_map, List.getElem_range]

/-- Mapping `{0..K-1}` through an injective self-map gives a permutation of
`{0..K-1}`. -/
theorem map_perm_range {K : ℕ} (f : ℕ → ℕ) (hlt : ∀ i < K, f i < K)
    (hinj : ∀ i < K, ∀ j < K, f i = f j → i = j) :
    ((List.range K).map f).Perm (List.range K) := by
  have hnd : ((List.range K).map f).Nodup := by
    apply List.Nodup.map_on _ (List.nodup_range K)
    intro x hx y hy hxy
    exact hinj x (List.mem_range.mp hx) y (List.mem_range.mp hy) hxy
  have hsub : (List.range K).map f ⊆ List.range K := by
    intro v hv
    rcases List.mem_map.mp hv with ⟨i, hi, rfl⟩
    exact List.mem_range.mpr (hlt i (List.mem_range.mp hi))
  refine (List.subperm_of_subset hnd hsub).perm_of_length_le ?_
  rw [List.length_map]

theorem indexOf_inj {K : ℕ} {σl : List ℕ} (hσ : σl.Perm (List.range K)) {x y : ℕ}
    (hx : x < K) (hy : y < K) (h : List.indexOf x σl = List.indexOf y σl) : x = y := by
  have hxm : x ∈ σl := (perm_range_mem hσ).mpr hx
  have hym : y ∈ σl := (perm_range_mem hσ).mpr hy
  have hx' := List.getElem_indexOf (List.indexOf_lt_length.mpr hxm)
  have hy' := List.getElem_indexOf (List.indexOf_lt_length.mpr hym)
  rw [← hx', ← hy']
  congr 1

/-- The positional inverse of a permutation of `{0..K-1}` is again a
permutation of `{0..K-1}`. -/
theorem map_indexOf_perm_range {K : ℕ} {σl : List ℕ} (hσ : σl.Perm (List.range K)) :
    ((List.range K).map (fun i => List.indexOf i σl)).Perm (List.range K) := by
  apply map_perm_range
  · intro i hi; exact perm_indexOf_lt hσ hi
  · intro i hi j hj hij; exact indexOf_inj hσ hi hj hij

/-! ### Lemmas about the relabeling step -/

theorem relabel_eq_map (asgn : List ℕ) :
    ∀ (p : List ℕ), (∀ v ∈ p, v ∈ asgn) →
      relabel asgn p = some (p.map (fun v => List.indexOf v asgn)) := by
  intro p
  induction p with
  | nil => intro _; rfl
  | cons v rest ih =>
    intro h
    unfold relabel
    rw [if_pos (h v (List.mem_cons_self _ _)),
      ih (fun w hw => h w (List.mem_cons_of_mem _ hw))]
    rfl

theorem relabel_none (asgn : List ℕ) :
    ∀ (p : List ℕ) (v : ℕ), v ∈ p → v ∉ asgn → relabel asgn p = none := by
  intro p
  induction p with
  | nil => intro v hv; cases hv
  | cons w rest ih =>
    intro v hv hvn
    unfold relabel
    rcases List.mem_cons.mp hv with rfl | hv'
    · rw [if_neg hvn]
    · by_cases hw : w ∈ asgn
      · rw [if_pos hw, ih v hv' hvn]
      · rw [if_neg hw]

/-! ### Counting lemmas connecting the cost matrix to disagreement rates -/

/-- Summing the per-label intersection counts along a column choice `f` counts
the pairs whose first component is in range and whose second component is
`f` of the first. -/
theorem sum_countP_eq (K : ℕ) (f : ℕ → ℕ) :
    ∀ (l : List (ℕ × ℕ)),
      (∑ i ∈ Finset.range K, l.countP (fun q => decide (q.1 = i) && decide (q.2 = f i)))
        = l.countP (fun q => decide (q.1 < K) && decide (q.2 = f q.1)) := by
  intro l
  induction l with
  | nil => simp
  | cons q l ih =>
    simp only [List.countP_cons]
    rw [Finset.sum_add_distrib, ih]
    congr 1
    have hterm : ∀ i, (if (decide (q.1 = i) && decide (q.2 = f i)) = true then 1 else 0)
        = (if q.1 = i then (if q.2 = f i then 1 else 0) else 0) := by
      intro i
      by_cases h1 : q.1 = i <;> by_cases h2 : q.2 = f i <;> simp [h1, h2]
    rw [Finset.sum_congr rfl (fun i _ => hterm i),
      Finset.sum_ite_eq (Finset.range K) q.1 (fun i => if q.2 = f i then 1 else 0)]
    by_cases hK : q.1 < K <;> by_cases h2 : q.2 = f q.1 <;>
      simp [hK, h2, Finset.mem_range]

/-- Total cost of an assignment on the built cost matrix, in closed form. -/
theorem totalCost_wmat_eq (t p ρ : List ℕ) (hρ : ρ.Perm (List.range (nclass t))) :
    totalCost (nclass t) (wmat t p) ρ
      = ((nclass t : ℚ) * (t.length : ℚ)
          - ∑ i ∈ Finset.range (nclass t), (nIntersec t p i (ρ.getD i 0) : ℚ))
        / (t.length : ℚ) := by
  unfold totalCost
  have h1 : ∀ i ∈ Finset.range (nclass t),
      wmat t p i (ρ.getD i 0) = wTerm t p i (ρ.getD i 0) := by
    intro i hi
    have hi' := Finset.mem_range.mp hi
    have hv : ρ.getD i 0 < nclass t := by
      have hlen : ρ.length = nclass t := perm_range_length hρ
      have hlt : i < ρ.length := by omega
      have hvm : ρ.getD i 0 ∈ ρ := by
        rw [List.getD_eq_getElem ρ 0 hlt]
        exact List.getElem_mem hlt
      exact (perm_range_mem hρ).mp hvm
    exact wmat_entry t p hi' hv
  rw [Finset.sum_congr rfl h1]
  unfold wTerm
  rw [← Finset.sum_div]
  congr 1
  rw [Finset.sum_sub_distrib, Finset.sum_const, Finset.card_range, nsmul_eq_mul]

/-- A cheaper assignment collects at least as many per-label agreements. -/
theorem sum_nIntersec_le_of_cost_le (t p : List ℕ) (hne : t.length ≠ 0)
    {π ρ : List ℕ} (hπ : π.Perm (List.range (nclass t)))
    (hρ : ρ.Perm (List.range (nclass t)))
    (hcost : totalCost (nclass t) (wmat t p) π ≤ totalCost (nclass t) (wmat t p) ρ) :
    (∑ i ∈ Finset.range (nclass t), nIntersec t p i (ρ.getD i 0))
      ≤ ∑ i ∈ Finset.range (nclass t), nIntersec t p i (π.getD i 0) := by
  rw [totalCost_wmat_eq t p π hπ, totalCost_wmat_eq t p ρ hρ] at hcost
  have hn : (0:ℚ) < (t.length : ℚ) := by
    exact_mod_cast Nat.pos_of_ne_zero hne
  have hsub := (div_le_div_iff_of_pos_right hn).mp hcost
  have hq : (∑ i ∈ Finset.range (nclass t), (nIntersec t p i (ρ.getD i 0) : ℚ))
      ≤ ∑ i ∈ Finset.range (nclass t), (nIntersec t p i (π.getD i 0) : ℚ) := by
    linarith
  exact_mod_cast hq

/-- Counting over a zip whose right side was mapped. -/
theorem countP_zip_map_right (t p : List ℕ) (h : ℕ → ℕ) (P : ℕ × ℕ → Bool) :
    (t.zip (p.map h)).countP P = (t.zip p).countP (fun q => P (q.1, h q.2)) := by
  rw [List.zip_map_right, List.countP_map]
  apply List.countP_congr
  intro q _
  rfl

/-- Counting disagreements is the complement of counting agreements. -/
theorem countP_ne_eq_sub (l : List (ℕ × ℕ)) (g : ℕ × ℕ → ℕ) :
    l.countP (fun q => decide (q.1 ≠ g q)) = l.length - l.countP (fun q => decide (q.1 = g q)) := by
  have hsplit := List.length_eq_countP_add_countP (fun q : ℕ × ℕ => decide (q.1 = g q)) l
  have hc : l.countP (fun q => decide ¬(decide (q.1 = g q) = true))
      = l.countP (fun q => decide (q.1 ≠ g q)) := by
    apply List.countP_congr
    intro q _
    simp
  omega

/-- The 0/1 loss of a relabeled prediction, through its agreement count. -/
theorem zero_one_loss_map_eq (t p : List ℕ) (h : ℕ → ℕ) :
    zero_one_loss t (p.map h)
      = (((t.zip p).length - (t.zip p).countP (fun q => decide (q.1 = h q.2)) : ℕ) : ℚ)
        / (t.length : ℚ) := by
  unfold zero_one_loss
  congr 2
  rw [countP_zip_map_right t p h (fun q => decide (q.1 ≠ q.2))]
  exact countP_ne_eq_sub (t.zip p) (fun q => h q.2)

/-- Comparing the 0/1 losses of two relabeled predictions reduces to comparing
agreement counts. -/
theorem zero_one_loss_map_le (t p : List ℕ) (g h : ℕ → ℕ)
    (hc : (t.zip p).countP (fun q => decide (q.1 = h q.2))
        ≤ (t.zip p).countP (fun q => decide (q.1 = g q.2))) :
    zero_one_loss t (p.map g) ≤ zero_one_loss t (p.map h) := by
  rw [zero_one_loss_map_eq t p g, zero_one_loss_map_eq t p h]
  apply div_le_div_of_nonneg_right _ (by positivity)
  have : (t.zip p).length - (t.zip p).countP (fun q => decide (q.1 = g q.2))
      ≤ (t.zip p).length - (t.zip p).countP (fun q => decide (q.1 = h q.2)) := by
    omega
  exact_mod_cast this

theorem perm_getD_lt {K : ℕ} {σl : List ℕ} (hσ : σl.Perm (List.range K)) {i : ℕ}
    (hi : i < K) : σl.getD i 0 < K := by
  have hlen := perm_range_length hσ
  have hlt : i < σl.length := by omega
  apply (perm_range_mem hσ).mp
  rw [List.getD_eq_getElem σl 0 hlt]
  exact List.getElem_mem hlt

theorem perm_getD_inj {K : ℕ} {σl : List ℕ} (hσ : σl.Perm (List.range K)) {i j : ℕ}
    (hi : i < K) (hj : j < K) (h : σl.getD i 0 = σl.getD j 0) : i = j := by
  have hlen := perm_range_length hσ
  have hi' : i < σl.length := by omega
  have hj' : j < σl.length := by omega
  rw [List.getD_eq_getElem σl 0 hi', List.getD_eq_getElem σl 0 hj'] at h
  exact ((perm_range_nodup hσ).getElem_inj_iff).mp h

theorem indexOf_getD {K : ℕ} {σl : List ℕ} (hσ : σl.Perm (List.range K)) {v : ℕ}
    (hv : v < K) : List.indexOf (σl.getD v 0) σl = v := by
  have hlen := perm_range_length hσ
  have hv' : v < σl.length := by omega
  rw [List.getD_eq_getElem σl 0 hv']
  exact List.indexOf_getElem (perm_range_nodup hσ) v hv'

theorem indexOf_range {K v : ℕ} (hv : v < K) : List.indexOf v (List.range K) = v := by
  have hv' : v < (List.range K).length := by rw [List.length_range]; exact hv
  have h := List.indexOf_getElem (List.nodup_range K) v hv'
  rw [List.getElem_range] at h
  exact h

/-- Agreement with the relabeled prediction, rewritten as agreement with the
assignment read forwards. -/
theorem countP_agree_indexOf (t p : List ℕ) {K : ℕ} {π : List ℕ}
    (hπ : π.Perm (List.range K)) (hp : ∀ v ∈ p, v < K) :
    (t.zip p).countP (fun q => decide (q.1 = List.indexOf q.2 π))
      = (t.zip p).countP (fun q => decide (q.1 < K) && decide (q.2 = π.getD q.1 0)) := by
  apply List.countP_congr
  intro q hq
  have hq2 : q.2 < K := hp q.2 (List.of_mem_zip hq).2
  simp only [decide_eq_true_eq, Bool.and_eq_true]
  constructor
  · intro h
    have h1 : q.1 < K := by rw [h]; exact perm_indexOf_lt hπ hq2
    exact ⟨h1, ((perm_indexOf_iff hπ h1 hq2).mp h).symm⟩
  · rintro ⟨h1, h2⟩
    exact (perm_indexOf_iff hπ h1 hq2).mpr h2.symm

/-- Agreement with a forward relabeling, rewritten through its positional
inverse. -/
theorem countP_agree_sigma (t p : List ℕ) {K : ℕ} {σl : List ℕ}
    (hσ : σl.Perm (List.range K)) (hp : ∀ v ∈ p, v < K) :
    (t.zip p).countP (fun q => decide (q.1 = σl.getD q.2 0))
      = (t.zip p).countP (fun q => decide (q.1 < K) && decide (q.2 = List.indexOf q.1 σl)) := by
  apply List.countP_congr
  intro q hq
  have hq2 : q.2 < K := hp q.2 (List.of_mem_zip hq).2
  simp only [decide_eq_true_eq, Bool.and_eq_true]
  constructor
  · intro h
    have h1 : q.1 < K := by rw [h]; exact perm_getD_lt hσ hq2
    exact ⟨h1, (perm_indexOf_iff hσ hq2 h1).mpr h.symm⟩
  · rintro ⟨h1, h2⟩
    exact ((perm_indexOf_iff hσ hq2 h1).mp h2).symm

/-- The matcher succeeds whenever all predicted labels are in range, and its
output rewrites each prediction through the assignment's positional lookup. -/
theorem kma_succeeds (t p : List ℕ) (hp : ∀ v ∈ p, v < nclass t) :
    kuhnMunkres t p
      = some (p.map (fun v => List.indexOf v (linear_sum_assignment (nclass t) (wmat t p)))) := by
  apply relabel_eq_map
  intro v hv
  exact (perm_range_mem (lsa_perm _ _)).mpr (hp v hv)

/-- Core optimality: the matcher's relabeled output disagrees with the true
labeling no more than the prediction relabeled through any bijection of
`{0..nclass-1}`. -/
theorem kma_loss_le_sigma (t p σl : List ℕ) (hp : ∀ v ∈ p, v < nclass t)
    (hσ : σl.Perm (List.range (nclass t))) :
    zero_one_loss t
        (p.map (fun v => List.indexOf v (linear_sum_assignment (nclass t) (wmat t p))))
      ≤ zero_one_loss t (p.map (fun v => σl.getD v 0)) := by
  by_cases hne : t.length = 0
  · have ht : t = [] := List.length_eq_zero.mp hne
    subst ht
    simp [zero_one_loss]
  · have hπ : (linear_sum_assignment (nclass t) (wmat t p)).Perm (List.range (nclass t)) :=
      lsa_perm _ _
    have hρσ : ((List.range (nclass t)).map (fun i => List.indexOf i σl)).Perm
        (List.range (nclass t)) := map_indexOf_perm_range hσ
    have hcost := lsa_min (nclass t) (wmat t p) hρσ
    have hsum := sum_nIntersec_le_of_cost_le t p hne hπ hρσ hcost
    have hgd : ∀ i ∈ Finset.range (nclass t),
        nIntersec t p i (((List.range (nclass t)).map (fun j => List.indexOf j σl)).getD i 0)
          = nIntersec t p i (List.indexOf i σl) := by
      intro i hi
      rw [getD_map_range _ (Finset.mem_range.mp hi)]
    rw [Finset.sum_congr rfl hgd] at hsum
    apply zero_one_loss_map_le
    rw [countP_agree_sigma t p hσ hp, countP_agree_indexOf t p hπ hp,
      ← sum_countP_eq (nclass t) (fun i => List.indexOf i σl) (t.zip p),
      ← sum_countP_eq (nclass t)
        (fun i => (linear_sum_assignment (nclass t) (wmat t p)).getD i 0) (t.zip p)]
    exact hsum

/-! ### Identity alignment on equal inputs -/

theorem zip_same_eq (t : List ℕ) : ∀ q ∈ t.zip t, q.1 = q.2 := by
  induction t with
  | nil => intro q hq; cases hq
  | cons v rest ih =>
    intro q hq
    rw [List.zip_cons_cons] at hq
    rcases List.mem_cons.mp hq with rfl | hq'
    · rfl
    · exact ih q hq'

theorem nIntersec_self_le (t : List ℕ) (i j : ℕ) :
    nIntersec t t i j ≤ nIntersec t t i i := by
  apply List.countP_mono_left
  intro q hq hcond
  have hqq := zip_same_eq t q hq
  simp only [Bool.and_eq_true, decide_eq_true_eq] at hcond ⊢
  exact ⟨hcond.1, by rw [← hqq]; exact hcond.1⟩

/-- On equal inputs the identity assignment has minimal total cost. -/
theorem identity_cost_le (t : List ℕ) {ρ : List ℕ}
    (hρ : ρ.Perm (List.range (nclass t))) :
    totalCost (nclass t) (wmat t t) (List.range (nclass t))
      ≤ totalCost (nclass t) (wmat t t) ρ := by
  unfold totalCost
  apply Finset.sum_le_sum
  intro i hi
  have hi' := Finset.mem_range.mp hi
  have hgi : (List.range (nclass t)).getD i 0 = i := by
    rw [List.getD_eq_getElem _ 0 (by rw [List.length_range]; exact hi'), List.getElem_range]
  rw [hgi]
  have hv : ρ.getD i 0 < nclass t := perm_getD_lt hρ hi'
  rw [wmat_entry t t hi' hi', wmat_entry t t hi' hv]
  unfold wTerm
  apply div_le_div_of_nonneg_right _ (by positivity)
  have hle := nIntersec_self_le t i (ρ.getD i 0)
  exact sub_le_sub_left (by exact_mod_cast hle) _

/-- On equal in-range inputs the matcher returns its input unchanged. -/
theorem kma_self (t : List ℕ) (ht : ∀ v ∈ t, v < nclass t) :
    kuhnMunkres t t = some t := by
  have hid : linear_sum_assignment (nclass t) (wmat t t) = List.range (nclass t) :=
    lsa_eq_range _ _ (fun ρ hρ => identity_cost_le t hρ)
  unfold kuhnMunkres
  rw [hid, relabel_eq_map _ t (fun v hv => List.mem_range.mpr (ht v hv))]
  congr 1
  have hmap : ∀ v ∈ t, List.indexOf v (List.range (nclass t)) = id v := by
    intro v hv
    exact indexOf_range (ht v hv)
  rw [List.map_congr_left hmap, List.map_id]

/-! ### Invariance of the aligned loss under relabeling of the prediction -/

/-- Relabeling the prediction through a bijection of `{0..nclass-1}` leaves
the matcher's aligned disagreement rate unchanged. -/
theorem kma_loss_invariant (t p σl : List ℕ) (hp : ∀ v ∈ p, v < nclass t)
    (hσ : σl.Perm (List.range (nclass t))) :
    zero_one_loss t
        ((p.map (fun v => σl.getD v 0)).map
          (fun v => List.indexOf v
            (linear_sum_assignment (nclass t) (wmat t (p.map (fun w => σl.getD w 0))))))
      = zero_one_loss t
          (p.map (fun v => List.indexOf v (linear_sum_assignment (nclass t) (wmat t p)))) := by
  have hπ : (linear_sum_assignment (nclass t) (wmat t p)).Perm (List.range (nclass t)) :=
    lsa_perm _ _
  have hπ' : (linear_sum_assignment (nclass t)
      (wmat t (p.map (fun w => σl.getD w 0)))).Perm (List.range (nclass t)) :=
    lsa_perm _ _
  have hp' : ∀ v ∈ p.map (fun w => σl.getD w 0), v < nclass t := by
    intro v hv
    rcases List.mem_map.mp hv with ⟨w, hw, rfl⟩
    exact perm_getD_lt hσ (hp w hw)
  apply le_antisymm
  · -- direction (≤): align the σ-relabeled prediction, compare against the
    -- bijection that undoes σ and then applies the original alignment
    have hυl : ((List.range (nclass t)).map
        (fun w => List.indexOf (List.indexOf w σl)
          (linear_sum_assignment (nclass t) (wmat t p)))).Perm
        (List.range (nclass t)) := by
      apply map_perm_range
      · intro i hi
        exact perm_indexOf_lt hπ (perm_indexOf_lt hσ hi)
      · intro i hi j hj hij
        exact indexOf_inj hσ hi hj
          (indexOf_inj hπ (perm_indexOf_lt hσ hi) (perm_indexOf_lt hσ hj) hij)
    have hcore := kma_loss_le_sigma t (p.map (fun w => σl.getD w 0)) _ hp' hυl
    refine le_trans hcore (le_of_eq ?_)
    congr 1
    rw [List.map_map]
    apply List.map_congr_left
    intro v hv
    have hvK := hp v hv
    simp only [Function.comp_apply]
    rw [getD_map_range _ (perm_getD_lt hσ hvK), indexOf_getD hσ hvK]
  · -- direction (≥): align the original prediction, compare against σ
    -- composed with the alignment of the σ-relabeled prediction
    have hτl : ((List.range (nclass t)).map
        (fun w => List.indexOf (σl.getD w 0)
          (linear_sum_assignment (nclass t)
            (wmat t (p.map (fun u => σl.getD u 0)))))).Perm
        (List.range (nclass t)) := by
      apply map_perm_range
      · intro i hi
        exact perm_indexOf_lt hπ' (perm_getD_lt hσ hi)
      · intro i hi j hj hij
        exact perm_getD_inj hσ hi hj
          (indexOf_inj hπ' (perm_getD_lt hσ hi) (perm_getD_lt hσ hj) hij)
    have hcore := kma_loss_le_sigma t p _ hp hτl
    refine le_trans hcore (le_of_eq ?_)
    congr 1
    rw [List.map_map]
    apply List.map_congr_left
    intro v hv
    have hvK := hp v hv
    simp only [Function.comp_apply]
    rw [getD_map_range _ hvK]

/-! ### Remaining small helpers -/

theorem kma_py_ndarray (tl pl : List ℕ) :
    _kuhn_munkres_algorithm (.ndarray tl) (.ndarray pl)
      = match kuhnMunkres tl pl with
        | some out => KMOutcome.ok out
        | none => KMOutcome.valueError := rfl

theorem mapM_option_eq_map {α β : Type} (f : α → Option β) (g : α → β) :
    ∀ l : List α, (∀ x ∈ l, f x = some (g x)) → l.mapM f = some (l.map g) := by
  intro l
  induction l with
  | nil => intro _; rfl
  | cons x l ih =>
    intro h
    rw [List.mapM_cons, h x (List.mem_cons_self _ _),
      ih (fun y hy => h y (List.mem_cons_of_mem _ hy))]
    rfl

/-! ### Claim theorems -/

/-- C1: for equal-length labelings with identifiers drawn from
`{0..nclass-1}`, the relabeled sequence returned by the matcher achieves a
0/1 disagreement rate against `true_lab` that is at most the rate of
`σ(pred_lab)` against `true_lab` for every bijection `σ` of `{0..nclass-1}`
(represented as a permutation list acting by position). -/
theorem C1_kma_minimizes_disagreement (t p σl : List ℕ)
    (ht : ∀ v ∈ t, v < nclass t) (hp : ∀ v ∈ p, v < nclass t)
    (hlen : p.length = t.length) (hσ : σl.Perm (List.range (nclass t))) :
    ∃ out, kuhnMunkres t p = some out ∧
      zero_one_loss t out ≤ zero_one_loss t (p.map (fun v => σl.getD v 0)) :=
  ⟨_, kma_succeeds t p hp, kma_loss_le_sigma t p σl hp hσ⟩

theorem C1_kma_minimizes_disagreement_witness :
    ∃ out, kuhnMunkres [0, 0, 1, 1] [1, 1, 0, 0] = some out ∧
      zero_one_loss [0, 0, 1, 1] out
        ≤ zero_one_loss [0, 0, 1, 1] ([1, 1, 0, 0].map (fun v => [0, 1].getD v 0)) :=
  C1_kma_minimizes_disagreement [0, 0, 1, 1] [1, 1, 0, 0] [0, 1]
    (by decide) (by decide) (by decide) (by decide)

/-- C2: every in-range entry of the cost matrix equals
`(n_samples − |true=i ∩ pred=j|) / n_samples` and lies in `[0, 1]`, even
though the builder iterates only the upper triangle plus the diagonal. -/
theorem C2_cost_matrix_entries (t p : List ℕ) {i j : ℕ}
    (hi : i < nclass t) (hj : j < nclass t) :
    wmat t p i j = ((t.length : ℚ) - (nIntersec t p i j : ℚ)) / (t.length : ℚ)
      ∧ 0 ≤ wmat t p i j ∧ wmat t p i j ≤ 1 := by
  have he : wmat t p i j = wTerm t p i j := wmat_entry t p hi hj
  have hne : t ≠ [] := by
    intro h
    rw [h] at hi
    simp [nclass] at hi
  have hlen : (0:ℚ) < (t.length : ℚ) := by
    exact_mod_cast List.length_pos.mpr hne
  have hIle : nIntersec t p i j ≤ t.length :=
    le_trans (List.countP_le_length _)
      (by rw [List.length_zip]; exact min_le_left _ _)
  refine ⟨he, ?_, ?_⟩
  · rw [he]
    unfold wTerm
    apply div_nonneg _ (le_of_lt hlen)
    have hc : (nIntersec t p i j : ℚ) ≤ (t.length : ℚ) := by exact_mod_cast hIle
    linarith
  · rw [he]
    unfold wTerm
    rw [div_le_one hlen]
    have hc : (0:ℚ) ≤ (nIntersec t p i j : ℚ) := by positivity
    linarith

theorem C2_cost_matrix_entries_witness :
    wmat [0, 1] [1, 0] 0 1
        = ((([0, 1] : List ℕ).length : ℚ) - (nIntersec [0, 1] [1, 0] 0 1 : ℚ))
            / (([0, 1] : List ℕ).length : ℚ)
      ∧ 0 ≤ wmat [0, 1] [1, 0] 0 1 ∧ wmat [0, 1] [1, 0] 0 1 ≤ 1 :=
  C2_cost_matrix_entries [0, 1] [1, 0] (by decide) (by decide)

/-- C3: `test` returns the 0/1 disagreement between a fresh clustering of the
test data and the fitted model's predictions after aligning them to the fresh
clustering with the matcher, together with the raw clustering labels; the
classifier capability stored in the validator plays no role (nothing is
re-fitted). -/
theorem C3_test_protocol {D : Type} (rv : RelativeValidation D) (d : D)
    (m : Model D) (r : ℚ) (labels : List ℕ) (h : rv.test d m = some (r, labels)) :
    labels = rv.clust_method.fit_predict d
      ∧ (∃ aligned,
          kuhnMunkres (rv.clust_method.fit_predict d) (m.predict d) = some aligned
            ∧ r = zero_one_loss (rv.clust_method.fit_predict d) aligned)
      ∧ ∀ cm' : ClassMethod D,
          RelativeValidation.test ⟨cm', rv.clust_method, rv.nrand⟩ d m = rv.test d m := by
  have hdef : rv.test d m
      = (kuhnMunkres (rv.clust_method.fit_predict d) (m.predict d)).map
          (fun bp => (zero_one_loss (rv.clust_method.fit_predict d) bp,
                      rv.clust_method.fit_predict d)) := rfl
  rw [hdef] at h
  rcases hk : kuhnMunkres (rv.clust_method.fit_predict d) (m.predict d) with _ | aligned
  · rw [hk] at h
    cases h
  · rw [hk] at h
    have h2 := Option.some.inj h
    refine ⟨(congrArg Prod.snd h2).symm, ⟨aligned, rfl, (congrArg Prod.fst h2).symm⟩,
      fun cm' => rfl⟩

theorem C3_test_protocol_witness :
    ([0, 1] : List ℕ) = rvPair.clust_method.fit_predict ()
      ∧ (∃ aligned,
          kuhnMunkres (rvPair.clust_method.fit_predict ()) (idPairModel.predict ())
              = some aligned
            ∧ (0 : ℚ) = zero_one_loss (rvPair.clust_method.fit_predict ()) aligned)
      ∧ ∀ cm' : ClassMethod Unit,
          RelativeValidation.test ⟨cm', rvPair.clust_method, rvPair.nrand⟩ () idPairModel
            = rvPair.test () idPairModel :=
  C3_test_protocol rvPair () idPairModel 0 [0, 1]
    (by
      show (kuhnMunkres [0, 1] [0, 1]).map
          (fun bp => (zero_one_loss [0, 1] bp, ([0, 1] : List ℕ))) = some (0, [0, 1])
      rw [kma_self [0, 1] (by decide)]
      simp [zero_one_loss])

/-- C4: relabeling the prediction through any bijection of `{0..nclass-1}`
leaves the matcher's 0/1 disagreement rate against `true_lab` unchanged. -/
theorem C4_relabeling_invariance (t p σl : List ℕ)
    (hp : ∀ v ∈ p, v < nclass t) (hlen : p.length = t.length)
    (hσ : σl.Perm (List.range (nclass t))) :
    ∃ out out',
      kuhnMunkres t p = some out
        ∧ kuhnMunkres t (p.map (fun v => σl.getD v 0)) = some out'
        ∧ zero_one_loss t out' = zero_one_loss t out := by
  have hp' : ∀ v ∈ p.map (fun w => σl.getD w 0), v < nclass t := by
    intro v hv
    rcases List.mem_map.mp hv with ⟨w, hw, rfl⟩
    exact perm_getD_lt hσ (hp w hw)
  exact ⟨_, _, kma_succeeds t p hp, kma_succeeds t _ hp',
    kma_loss_invariant t p σl hp hσ⟩

theorem C4_relabeling_invariance_witness :
    ∃ out out',
      kuhnMunkres [0, 0, 1, 1] [1, 1, 0, 0] = some out
        ∧ kuhnMunkres [0, 0, 1, 1] ([1, 1, 0, 0].map (fun v => [1, 0].getD v 0)) = some out'
        ∧ zero_one_loss [0, 0, 1, 1] out' = zero_one_loss [0, 0, 1, 1] out :=
  C4_relabeling_invariance [0, 0, 1, 1] [1, 1, 0, 0] [1, 0]
    (by decide) (by decide) (by decide)

/-- C5: `train` returns the clustering labels of the training data, the model
fitted on those labels, and the plain 0/1 disagreement between the clustering
labels and that model's predictions on the same data, with no label
realignment applied. -/
theorem C5_train_protocol {D : Type} (rv : RelativeValidation D) (d : D) :
    (rv.train d).2.2 = rv.clust_method.fit_predict d
      ∧ (rv.train d).2.1 = rv.class_method.fit d (rv.clust_method.fit_predict d)
      ∧ (rv.train d).1 = zero_one_loss (rv.clust_method.fit_predict d)
          ((rv.class_method.fit d (rv.clust_method.fit_predict d)).predict d) :=
  ⟨rfl, rfl, rfl⟩

/-- C6 as stated is false: on the identical non-empty inputs `[1, 2]` the
matcher does not return the input; its inverse lookup raises the `ValueError`
modelled by `none`, because the labels are not drawn from `{0..nclass-1}`. -/
theorem C6_identity_counterexample : kuhnMunkres [1, 2] [1, 2] = none := by
  unfold kuhnMunkres
  apply relabel_none _ _ 2 (by decide)
  intro hmem
  have hlt := (perm_range_mem (lsa_perm (nclass [1, 2]) (wmat [1, 2] [1, 2]))).mp hmem
  have h2 : nclass [1, 2] = 2 := by decide
  omega

/-- C6 amended: on identical non-empty inputs whose labels are drawn from
`{0..nclass-1}`, the matcher returns a labeling identical to the input, the
zero-extra-cost optimal assignment being the identity. -/
theorem C6_identity_alignment (t : List ℕ) (hne : t ≠ [])
    (ht : ∀ v ∈ t, v < nclass t) : kuhnMunkres t t = some t :=
  kma_self t ht

theorem C6_identity_alignment_witness :
    kuhnMunkres [0, 1, 1] [0, 1, 1] = some [0, 1, 1] :=
  C6_identity_alignment [0, 1, 1] (by decide) (by decide)

/-- C7: the embedded `_kuhn_munkres_algorithm` returns the `TypeError` whose
message names both argument types exactly when at least one argument is not a
numpy ndarray. -/
theorem C7_type_error_iff (t p : PyVal) :
    _kuhn_munkres_algorithm t p = .typeError (typeErrorMsg t p)
      ↔ ¬(isNdarray t = true ∧ isNdarray p = true) := by
  cases t with
  | ndarray tl =>
    cases p with
    | ndarray pl =>
      rw [kma_py_ndarray]
      rcases hk : kuhnMunkres tl pl with _ | out <;> simp [isNdarray]
    | pyOther s => simp [_kuhn_munkres_algorithm, isNdarray]
  | pyOther s =>
    cases p <;> simp [_kuhn_munkres_algorithm, isNdarray]

/-- C8 as stated is false: on the degenerate input of two empty arrays the
algorithm does not fail with a typed error; it silently returns the vacuous
empty result. -/
theorem C8_degenerate_counterexample :
    _kuhn_munkres_algorithm (.ndarray []) (.ndarray []) = .ok [] := rfl

/-- C8 amended: with zero samples in `true_lab` the algorithm does not raise
a typed error: it silently returns the empty array when `pred_lab` is also
empty, and otherwise escapes with the untyped `ValueError` of the relabeling
step. -/
theorem C8_degenerate_behavior (pl : List ℕ) :
    _kuhn_munkres_algorithm (.ndarray []) (.ndarray pl)
      = if pl.isEmpty then KMOutcome.ok [] else KMOutcome.valueError := by
  cases pl with
  | nil => rfl
  | cons v rest =>
    have hnone : kuhnMunkres [] (v :: rest) = none := by
      unfold kuhnMunkres
      apply relabel_none _ _ v (List.mem_cons_self _ _)
      intro hmem
      have hlt := (perm_range_mem (lsa_perm (nclass ([] : List ℕ)) _)).mp hmem
      have h0 : nclass ([] : List ℕ) = 0 := rfl
      omega
    rw [kma_py_ndarray, hnone]
    rfl

/-- C9: `rndlabels_traineval` is independent of the ambient RNG state at call
time, because the sequence of permutation draws is produced from the fixed
seed set at the start of every call; on success it returns the arithmetic
means of the per-round train-side and test-side 0/1 disagreements. -/
theorem C9_rnd_deterministic_means {D : Type} (rv : RelativeValidation D)
    (npr : NumpyRandom) (s1 s2 : ℕ × ℕ) (train_data test_data : D)
    (train_labels test_labels : List ℕ) (r : ℕ → ℚ × ℚ)
    (hr : ∀ k < rv.nrand,
      rndRound rv npr train_data test_data train_labels test_labels k = some (r k)) :
    rndlabels_traineval rv npr s1 train_data test_data train_labels test_labels
        = rndlabels_traineval rv npr s2 train_data test_data train_labels test_labels
      ∧ rndlabels_traineval rv npr s1 train_data test_data train_labels test_labels
          = some ((npMean (((List.range rv.nrand).map r).map Prod.fst),
                    npMean (((List.range rv.nrand).map r).map Prod.snd)),
                  (0, rv.nrand)) := by
  constructor
  · rfl
  · unfold rndlabels_traineval
    rw [mapM_option_eq_map _ r (List.range rv.nrand)
      (fun x hx => hr x (List.mem_range.mp hx))]
    rfl

theorem C9_rnd_deterministic_means_witness :
    rndlabels_traineval rvSingle idNumpyRandom (5, 7) () () [0] [0]
        = rndlabels_traineval rvSingle idNumpyRandom (0, 0) () () [0] [0]
      ∧ rndlabels_traineval rvSingle idNumpyRandom (5, 7) () () [0] [0]
          = some ((npMean (((List.range rvSingle.nrand).map
                      (fun _ => ((0 : ℚ), (0 : ℚ)))).map Prod.fst),
                    npMean (((List.range rvSingle.nrand).map
                      (fun _ => ((0 : ℚ), (0 : ℚ)))).map Prod.snd)),
                  (0, rvSingle.nrand)) :=
  C9_rnd_deterministic_means rvSingle idNumpyRandom (5, 7) (0, 0) () () [0] [0]
    (fun _ => ((0 : ℚ), (0 : ℚ)))
    (by
      intro k hk
      have h1 : rvSingle.nrand = 1 := rfl
      have hk0 : k = 0 := by omega
      subst hk0
      show (kuhnMunkres [0] [0]).map
          (fun best => (zero_one_loss [0] [0], zero_one_loss [0] best)) = some (0, 0)
      rw [kma_self [0] (by decide)]
      simp [zero_one_loss])

/-- C10: when `pred_lab` contains a label value outside `{0..nclass-1}` with
`nclass` derived from `true_lab`, the algorithm does not return a relabeled
sequence and does not raise the documented `TypeError`: the inverse lookup
fails with the untyped `ValueError`. -/
theorem C10_out_of_range_value_error (tl pl : List ℕ) (v : ℕ)
    (hv : v ∈ pl) (hge : nclass tl ≤ v) :
    _kuhn_munkres_algorithm (.ndarray tl) (.ndarray pl) = .valueError := by
  have hnone : kuhnMunkres tl pl = none := by
    unfold kuhnMunkres
    apply relabel_none _ _ v hv
    intro hmem
    have hlt := (perm_range_mem (lsa_perm (nclass tl) (wmat tl pl))).mp hmem
    omega
  rw [kma_py_ndarray, hnone]

theorem C10_out_of_range_value_error_witness :
    _kuhn_munkres_algorithm (.ndarray [0, 0]) (.ndarray [0, 5]) = .valueError :=
  C10_out_of_range_value_error [0, 0] [0, 5] 5 (by decide) (by decide)

end Reval
